import Mathlib

/-!
Verification of the ads.txt / app-ads.txt parsing library.

Strings are modelled as lists of characters.  The Rust string primitives the
library uses (`str::lines`, `str::trim`, `str::trim_start`, `str::split`,
`str::to_lowercase`, `str::starts_with`, `str::eq_ignore_ascii_case`) are
embedded below, and every parsing function of the library is translated
directly from the source.
-/

deriving instance DecidableEq for Except

namespace AdsSpec

/-- A string, modelled as its list of characters. -/
abbrev Str := List Char

/-- The Unicode White_Space property, as used by Rust's char::is_whitespace
(and hence by str::trim, str::trim_start and str::trim_end). -/
def rustIsWhitespace (c : Char) : Bool :=
  decide (c.toNat ∈ ([0x09, 0x0a, 0x0b, 0x0c, 0x0d, 0x20, 0x85, 0xa0, 0x1680,
      0x2028, 0x2029, 0x202f, 0x205f, 0x3000] : List Nat)
    ∨ (0x2000 ≤ c.toNat ∧ c.toNat ≤ 0x200a))

/-- Rust str::trim_start: remove leading whitespace. -/
def trimStart (s : Str) : Str := s.dropWhile rustIsWhitespace

/-- Rust str::trim_end: remove trailing whitespace. -/
def trimEnd (s : Str) : Str := s.rdropWhile rustIsWhitespace

/-- Rust str::trim: remove leading and trailing whitespace. -/
def trim (s : Str) : Str := trimEnd (trimStart s)

/-- Rust str::to_lowercase, restricted to the ASCII case mapping.  (The full
Unicode mapping agrees with the ASCII one on every string whose lowercase
form could equal the ASCII literals "direct" or "reseller", which are the
only strings the library compares lowercased text against.) -/
def toLowercase (s : Str) : Str := s.map Char.toLower

/-- Rust str::split on a single separator character: the list of (possibly
empty) fields between occurrences of the separator.  Always nonempty;
splitting the empty string yields one empty field, as in Rust. -/
def splitChar (sep : Char) : Str → List Str
  | [] => [[]]
  | c :: cs =>
    if c = sep then [] :: splitChar sep cs
    else
      match splitChar sep cs with
      | [] => [[c]]
      | f :: rest => (c :: f) :: rest

/-- Remove one trailing carriage return, if present. -/
def stripTrailingCR (l : Str) : Str :=
  if l.getLast? = some '\r' then l.dropLast else l

/-- Rust str::lines: split on the newline character, treat a final newline as
a terminator (no empty final line), and strip the carriage return of a
"\r\n" line ending.  A carriage return not followed by a newline is kept. -/
def rust_lines (s : Str) : List Str :=
  match (splitChar '\n' s).getLast? with
  | some [] => (splitChar '\n' s).dropLast.map stripTrailingCR
  | some last => (splitChar '\n' s).dropLast.map stripTrailingCR ++ [last]
  | none => (splitChar '\n' s).dropLast.map stripTrailingCR

/-- The error value of the library: a single human-readable message. -/
structure AdsTxtError where
  message : Str
deriving DecidableEq

/-- AdsTxtError::new. -/
def AdsTxtError.new (message : Str) : AdsTxtError := ⟨message⟩

/-- The AccountRelation enum. -/
inductive AccountRelation where
  | Direct
  | Reseller
deriving DecidableEq

/-- AccountRelation::parse. -/
def AccountRelation.parse (text : Str) : Except AdsTxtError AccountRelation :=
  let relation := toLowercase (trim text)
  if relation = "direct".toList then .ok .Direct
  else if relation = "reseller".toList then .ok .Reseller
  else .error ⟨"Invalid account relation: ".toList ++ text⟩

/-- The DataRecord struct. -/
structure DataRecord where
  domain : Str
  publisher_id : Str
  acc_relation : AccountRelation
  cert_authority : Option Str
deriving DecidableEq

/-- DataRecord::new: trims domain and publisher_id, stores the relation and
certification authority as given. -/
def DataRecord.new (domain publisher_id : Str) (acc_relation : AccountRelation)
    (cert_authority : Option Str) : DataRecord :=
  ⟨trim domain, trim publisher_id, acc_relation, cert_authority⟩

/-- DataRecord::parse: split on commas, accept exactly 3 or 4 fields (the
relation error, if any, propagates), otherwise an InvalidDataRecord error. -/
def DataRecord.parse (record_text : Str) : Except AdsTxtError DataRecord :=
  match splitChar ',' record_text with
  | [f0, f1, f2] =>
    (AccountRelation.parse f2).map fun rel =>
      ⟨trim f0, trim f1, rel, none⟩
  | [f0, f1, f2, f3] =>
    (AccountRelation.parse f2).map fun rel =>
      ⟨trim f0, trim f1, rel, some (trim f3)⟩
  | _ => .error ⟨"Invalid data record: ".toList ++ record_text⟩

/-- The Variable struct. -/
structure Variable where
  name : Str
  value : Str
deriving DecidableEq

/-- Variable::new: stores name and value as given. -/
def Variable.new (name value : Str) : Variable := ⟨name, value⟩

/-- Variable::parse: split on the equals sign, accept exactly 2 fields,
otherwise an InvalidVariable error. -/
def Variable.parse (line : Str) : Except AdsTxtError Variable :=
  match splitChar '=' line with
  | [f0, f1] => .ok ⟨trim f0, trim f1⟩
  | _ => .error ⟨"Invalid variable record: ".toList ++ line⟩

/-- The AdsTxt document: records and variables, in encounter order. -/
structure AdsTxt where
  records : List DataRecord
  vars : List Variable
deriving DecidableEq

/-- AdsTxt::is_comment: the line starts with the hash character. -/
def AdsTxt.is_comment (line : Str) : Bool :=
  match line with
  | c :: _ => c = '#'
  | [] => false

/-- AdsTxt::new. -/
def AdsTxt.new (records : List DataRecord) (vars : List Variable) : AdsTxt :=
  ⟨records, vars⟩

/-- AdsTxt::empty. -/
def AdsTxt.empty : AdsTxt := ⟨[], []⟩

/-- The per-line loop of AdsTxt::parse (strict mode): left-trim the line,
skip blank and comment lines, try the record parser then the variable
parser, and fail fast with an InvalidLine error when both fail. -/
def AdsTxt.parseLines : List Str → Except AdsTxtError AdsTxt
  | [] => .ok ⟨[], []⟩
  | l :: ls =>
    let line := trimStart l
    if line.isEmpty || AdsTxt.is_comment line then AdsTxt.parseLines ls
    else
      match DataRecord.parse line with
      | .ok record => (AdsTxt.parseLines ls).map fun doc =>
          ⟨record :: doc.records, doc.vars⟩
      | .error _ =>
        match Variable.parse line with
        | .ok var => (AdsTxt.parseLines ls).map fun doc =>
            ⟨doc.records, var :: doc.vars⟩
        | .error _ => .error ⟨"Invalid ads.txt line: ".toList ++ line⟩

/-- AdsTxt::parse. -/
def AdsTxt.parse (text : Str) : Except AdsTxtError AdsTxt :=
  AdsTxt.parseLines (rust_lines text)

/-- The per-line loop of AdsTxt::parse_lenient: identical classification,
but an unclassifiable line's error is collected and iteration continues. -/
def AdsTxt.parseLenientLines : List Str → AdsTxt × List AdsTxtError
  | [] => (⟨[], []⟩, [])
  | l :: ls =>
    let line := trimStart l
    if line.isEmpty || AdsTxt.is_comment line then AdsTxt.parseLenientLines ls
    else
      let p := AdsTxt.parseLenientLines ls
      match DataRecord.parse line with
      | .ok record => (⟨record :: p.1.records, p.1.vars⟩, p.2)
      | .error _ =>
        match Variable.parse line with
        | .ok var => (⟨p.1.records, var :: p.1.vars⟩, p.2)
        | .error _ => (p.1, ⟨"Invalid ads.txt line: ".toList ++ line⟩ :: p.2)

/-- AdsTxt::parse_lenient. -/
def AdsTxt.parse_lenient (text : Str) : AdsTxt × List AdsTxtError :=
  AdsTxt.parseLenientLines (rust_lines text)

/-- AdsTxt::values: the values of the variables whose name equals the given
name exactly (case-sensitively), in original order. -/
def AdsTxt.values (a : AdsTxt) (name : Str) : List Str :=
  ((a.vars.filter fun v => v.name == name).map Variable.value)

/-- Rust str::eq_ignore_ascii_case. -/
def eqIgnoreAsciiCase (a b : Str) : Bool :=
  a.map Char.toLower == b.map Char.toLower

/-- AdsTxt::sub_domains: the values of the variables whose name equals
"subdomain" up to ASCII case, in original order. -/
def AdsTxt.sub_domains (a : AdsTxt) : List Str :=
  ((a.vars.filter fun v => eqIgnoreAsciiCase v.name "subdomain".toList).map
    Variable.value)

/-- AdsTxt::contacts: the values of the variables whose name equals
"contact" up to ASCII case, in original order. -/
def AdsTxt.contacts (a : AdsTxt) : List Str :=
  ((a.vars.filter fun v => eqIgnoreAsciiCase v.name "contact".toList).map
    Variable.value)

/-- The classifiable candidates of a list of raw lines, following the spec:
each line is left-trimmed, and comment and blank lines are dropped. -/
def classifiedLines (ls : List Str) : List Str :=
  (ls.map trimStart).filter fun l => !(l.isEmpty || AdsTxt.is_comment l)

/-- Follows the spec: the records of a document are exactly the lines that
parse as data records, in encounter order. -/
def specRecords (ls : List Str) : List DataRecord :=
  (classifiedLines ls).filterMap fun l => (DataRecord.parse l).toOption

/-- Follows the spec: the variables of a document are exactly the lines that
do not parse as data records but do parse as variables, in order. -/
def specVariables (ls : List Str) : List Variable :=
  (classifiedLines ls).filterMap fun l =>
    match DataRecord.parse l with
    | .ok _ => none
    | .error _ => (Variable.parse l).toOption

/-- Follows the spec: the lenient error sequence lists exactly the
unclassifiable lines, in encounter order. -/
def specErrors (ls : List Str) : List AdsTxtError :=
  (classifiedLines ls).filterMap fun l =>
    match DataRecord.parse l, Variable.parse l with
    | .error _, .error _ => some ⟨"Invalid ads.txt line: ".toList ++ l⟩
    | _, _ => none

/-- The left-trimmed text of the first line that is neither skippable nor
classifiable as a record or a variable, if any. -/
def firstBadLine (ls : List Str) : Option Str :=
  ls.findSome? fun l =>
    let line := trimStart l
    if line.isEmpty || AdsTxt.is_comment line then none
    else
      match DataRecord.parse line, Variable.parse line with
      | .error _, .error _ => some line
      | _, _ => none

theorem parseLenientLines_eq_spec (ls : List Str) :
    AdsTxt.parseLenientLines ls =
      (⟨specRecords ls, specVariables ls⟩, specErrors ls) := by
  induction ls with
  | nil => rfl
  | cons l ls ih =>
    by_cases hE : trimStart l = []
    · simp [AdsTxt.parseLenientLines, specRecords, specVariables, specErrors,
        classifiedLines, hE, ih]
    · by_cases hC : AdsTxt.is_comment (trimStart l) = true
      · simp [AdsTxt.parseLenientLines, specRecords, specVariables, specErrors,
          classifiedLines, hE, hC, ih]
      · cases hr : DataRecord.parse (trimStart l) with
        | ok record =>
          simp [AdsTxt.parseLenientLines, specRecords, specVariables, specErrors,
            classifiedLines, hE, hC, hr, ih, Except.toOption]
        | error e =>
          cases hv : Variable.parse (trimStart l) with
          | ok var =>
            simp [AdsTxt.parseLenientLines, specRecords, specVariables, specErrors,
              classifiedLines, hE, hC, hr, hv, ih, Except.toOption]
          | error e2 =>
            simp [AdsTxt.parseLenientLines, specRecords, specVariables, specErrors,
              classifiedLines, hE, hC, hr, hv, ih, Except.toOption]

theorem parseLines_eq_spec (ls : List Str) :
    AdsTxt.parseLines ls =
      (match firstBadLine ls with
       | none => .ok ⟨specRecords ls, specVariables ls⟩
       | some bad => .error ⟨"Invalid ads.txt line: ".toList ++ bad⟩) := by
  induction ls with
  | nil => rfl
  | cons l ls ih =>
    by_cases hE : trimStart l = []
    · simpa [AdsTxt.parseLines, specRecords, specVariables, firstBadLine,
        classifiedLines, List.findSome?_cons, hE] using ih
    · by_cases hC : AdsTxt.is_comment (trimStart l) = true
      · simpa [AdsTxt.parseLines, specRecords, specVariables, firstBadLine,
          classifiedLines, List.findSome?_cons, hE, hC] using ih
      · cases hr : DataRecord.parse (trimStart l) with
        | ok record =>
          have hstep : firstBadLine (l :: ls) = firstBadLine ls := by
            simp [firstBadLine, List.findSome?_cons, hr]
          cases hb : firstBadLine ls with
          | none =>
            simp [AdsTxt.parseLines, specRecords, specVariables,
              classifiedLines, hE, hC, hr, hstep, hb, ih, Except.toOption, Except.map]
          | some bad =>
            simp [AdsTxt.parseLines, specRecords, specVariables,
              classifiedLines, hE, hC, hr, hstep, hb, ih, Except.toOption, Except.map]
        | error e =>
          cases hv : Variable.parse (trimStart l) with
          | ok var =>
            have hstep : firstBadLine (l :: ls) = firstBadLine ls := by
              simp [firstBadLine, List.findSome?_cons, hr, hv]
            cases hb : firstBadLine ls with
            | none =>
              simp [AdsTxt.parseLines, specRecords, specVariables,
                classifiedLines, hE, hC, hr, hv, hstep, hb, ih, Except.toOption, Except.map]
            | some bad =>
              simp [AdsTxt.parseLines, specRecords, specVariables,
                classifiedLines, hE, hC, hr, hv, hstep, hb, ih, Except.toOption, Except.map]
          | error e2 =>
            have hstep : firstBadLine (l :: ls) = some (trimStart l) := by
              simp [firstBadLine, List.findSome?_cons, hE, hC, hr, hv]
            simp [AdsTxt.parseLines, hE, hC, hr, hv, hstep]

theorem specErrors_head_eq_firstBadLine (ls : List Str) :
    (specErrors ls).head? =
      (firstBadLine ls).map fun bad =>
        AdsTxtError.mk ("Invalid ads.txt line: ".toList ++ bad) := by
  induction ls with
  | nil => rfl
  | cons l ls ih =>
    by_cases hE : trimStart l = []
    · simpa [specErrors, classifiedLines, firstBadLine, List.findSome?_cons, hE] using ih
    · by_cases hC : AdsTxt.is_comment (trimStart l) = true
      · simpa [specErrors, classifiedLines, firstBadLine, List.findSome?_cons, hE, hC] using ih
      · cases hr : DataRecord.parse (trimStart l) with
        | ok record =>
          simpa [specErrors, classifiedLines, firstBadLine, List.findSome?_cons, hE, hC, hr] using ih
        | error e =>
          cases hv : Variable.parse (trimStart l) with
          | ok var =>
            simpa [specErrors, classifiedLines, firstBadLine, List.findSome?_cons, hE, hC, hr, hv] using ih
          | error e2 =>
            simp [specErrors, classifiedLines, firstBadLine, List.findSome?_cons, hE, hC, hr, hv]

/-- C1: for every input text, lenient parsing yields a document whose
records and variables are exactly the successfully classified non-comment,
non-blank lines in encounter order, and an error sequence containing exactly
the unclassifiable lines' errors in encounter order; strict parsing of the
same text succeeds with the identical document exactly when the lenient
error sequence is empty, and otherwise fails with the first lenient error
(whose message carries the offending line). -/
theorem lenient_strict_refinement (text : Str) :
    (AdsTxt.parse_lenient text).1.records = specRecords (rust_lines text) ∧
    (AdsTxt.parse_lenient text).1.vars = specVariables (rust_lines text) ∧
    (AdsTxt.parse_lenient text).2 = specErrors (rust_lines text) ∧
    AdsTxt.parse text =
      (match (AdsTxt.parse_lenient text).2 with
       | [] => .ok (AdsTxt.parse_lenient text).1
       | e :: _ => .error e) := by
  have hl := parseLenientLines_eq_spec (rust_lines text)
  have hs := parseLines_eq_spec (rust_lines text)
  have hh := specErrors_head_eq_firstBadLine (rust_lines text)
  refine ⟨by simp [AdsTxt.parse_lenient, hl], by simp [AdsTxt.parse_lenient, hl],
    by simp [AdsTxt.parse_lenient, hl], ?_⟩
  rw [AdsTxt.parse, hs]
  cases hb : firstBadLine (rust_lines text) with
  | none =>
    have he : specErrors (rust_lines text) = [] := by
      rw [hb] at hh
      simpa using hh
    simp [AdsTxt.parse_lenient, hl, he]
  | some bad =>
    rw [hb] at hh
    cases hse : specErrors (rust_lines text) with
    | nil => rw [hse] at hh; simp at hh
    | cons e es =>
      rw [hse] at hh
      simp only [List.head?_cons, Option.map_some] at hh
      cases hh
      simp [AdsTxt.parse_lenient, hl, hse]

/-- C5: strict parsing returns either a complete document or a single
error, never both; every whole-document error is an InvalidLine error whose
message is "Invalid ads.txt line: " followed by the left-trimmed text of
the first line matching neither the record nor the variable grammar. -/
theorem strict_error_is_first_invalid_line (text : Str) :
    AdsTxt.parse text =
      (match firstBadLine (rust_lines text) with
       | none => .ok (AdsTxt.parse_lenient text).1
       | some bad => .error ⟨"Invalid ads.txt line: ".toList ++ bad⟩) := by
  rw [AdsTxt.parse, parseLines_eq_spec]
  cases hb : firstBadLine (rust_lines text) with
  | none => simp [AdsTxt.parse_lenient, parseLenientLines_eq_spec]
  | some bad => simp

/-- C2: data-record parsing splits on the comma; it succeeds exactly on 3 or
4 fields with a valid relation token (the relation error propagating
otherwise), with cert_authority None on 3 fields and Some of the trimmed
4th field on 4 fields, domain and publisher_id being the trimmed 1st and
2nd fields; any other field count yields the InvalidDataRecord error whose
message carries the full original line. -/
theorem dataRecord_parse_characterization (line : Str) :
    DataRecord.parse line =
      (if (splitChar ',' line).length = 3 then
        (AccountRelation.parse ((splitChar ',' line).getD 2 [])).map fun rel =>
          ⟨trim ((splitChar ',' line).getD 0 []),
           trim ((splitChar ',' line).getD 1 []), rel, none⟩
       else if (splitChar ',' line).length = 4 then
        (AccountRelation.parse ((splitChar ',' line).getD 2 [])).map fun rel =>
          ⟨trim ((splitChar ',' line).getD 0 []),
           trim ((splitChar ',' line).getD 1 []), rel,
           some (trim ((splitChar ',' line).getD 3 []))⟩
       else .error ⟨"Invalid data record: ".toList ++ line⟩) := by
  rcases hs : splitChar ',' line with _ | ⟨a, _ | ⟨b, _ | ⟨c, _ | ⟨d, _ | ⟨e, rest⟩⟩⟩⟩⟩
  · simp [DataRecord.parse, hs]
  · simp [DataRecord.parse, hs]
  · simp [DataRecord.parse, hs]
  · simp [DataRecord.parse, hs]
  · simp [DataRecord.parse, hs]
  · rw [if_neg (by simp), if_neg (by simp)]
    simp [DataRecord.parse, hs]

/-- C6: variable parsing splits on the equals sign and succeeds exactly when
the split yields 2 fields, returning a Variable with each field trimmed;
any other split count yields the InvalidVariable error whose message
carries the original line. -/
theorem variable_parse_characterization (line : Str) :
    Variable.parse line =
      (if (splitChar '=' line).length = 2 then
        .ok ⟨trim ((splitChar '=' line).getD 0 []),
             trim ((splitChar '=' line).getD 1 [])⟩
       else .error ⟨"Invalid variable record: ".toList ++ line⟩) := by
  rcases hs : splitChar '=' line with _ | ⟨a, _ | ⟨b, _ | ⟨c, rest⟩⟩⟩
  · simp [Variable.parse, hs]
  · simp [Variable.parse, hs]
  · simp [Variable.parse, hs]
  · rw [if_neg (by simp)]
    simp [Variable.parse, hs]

theorem eqIgnoreAsciiCase_iff_lower (a b : Str) (hb : toLowercase b = b) :
    (eqIgnoreAsciiCase a b = true) ↔ toLowercase a = b := by
  rw [eqIgnoreAsciiCase, beq_iff_eq]
  show toLowercase a = toLowercase b ↔ toLowercase a = b
  rw [hb]

/-- C3: a token whose trimmed form equals "direct" or "reseller" up to case
parses to Direct or Reseller respectively; any other token fails with an
InvalidAccountRelation error carrying the original untrimmed, original-case
input in its message. -/
theorem accountRelation_parse_characterization (text : Str) :
    AccountRelation.parse text =
      (if eqIgnoreAsciiCase (trim text) "direct".toList = true then .ok .Direct
       else if eqIgnoreAsciiCase (trim text) "reseller".toList = true then .ok .Reseller
       else .error ⟨"Invalid account relation: ".toList ++ text⟩) := by
  have hd : toLowercase "direct".toList = "direct".toList := by decide
  have hre : toLowercase "reseller".toList = "reseller".toList := by decide
  have e1 := eqIgnoreAsciiCase_iff_lower (trim text) _ hd
  have e2 := eqIgnoreAsciiCase_iff_lower (trim text) _ hre
  by_cases h1 : toLowercase (trim text) = "direct".toList
  · rw [if_pos (e1.mpr h1)]
    simp [AccountRelation.parse, h1]
  · by_cases h2 : toLowercase (trim text) = "reseller".toList
    · rw [if_neg (fun hc => h1 (e1.mp hc)), if_pos (e2.mpr h2)]
      simp [AccountRelation.parse, h1, h2]
    · rw [if_neg (fun hc => h1 (e1.mp hc)), if_neg (fun hc => h2 (e2.mp hc))]
      show (if toLowercase (trim text) = "direct".toList
          then (Except.ok AccountRelation.Direct : Except AdsTxtError AccountRelation)
          else if toLowercase (trim text) = "reseller".toList
          then Except.ok AccountRelation.Reseller
          else Except.error ⟨"Invalid account relation: ".toList ++ text⟩) = _
      rw [if_neg h1, if_neg h2]

theorem rustIsWhitespace_hash : rustIsWhitespace '#' = false := by decide

theorem skip_condition (l : Str)
    (h : trimStart l = [] ∨ AdsTxt.is_comment l = true) :
    ((trimStart l).isEmpty || AdsTxt.is_comment (trimStart l)) = true := by
  rcases h with h | h
  · simp [h]
  · cases l with
    | nil => simp [AdsTxt.is_comment] at h
    | cons c cs =>
      have hc : c = '#' := by simpa [AdsTxt.is_comment] using h
      subst hc
      have ht : trimStart ('#' :: cs) = '#' :: cs := by
        simp [trimStart, List.dropWhile_cons, rustIsWhitespace_hash]
      rw [ht]
      simp [AdsTxt.is_comment]

/-- C7: a line that is empty after stripping leading whitespace, or that
starts with the hash character, is skipped by both strict and lenient
parsing: wherever it occurs, it produces no error, no record and no
variable, and the resulting document content is unaffected. -/
theorem skipped_line_invariance (l : Str) (pre post : List Str)
    (h : trimStart l = [] ∨ AdsTxt.is_comment l = true) :
    AdsTxt.parseLines (pre ++ l :: post) = AdsTxt.parseLines (pre ++ post) ∧
    AdsTxt.parseLenientLines (pre ++ l :: post) =
      AdsTxt.parseLenientLines (pre ++ post) := by
  have hskip := skip_condition l h
  induction pre with
  | nil =>
    constructor
    · show AdsTxt.parseLines (l :: post) = _
      simp only [AdsTxt.parseLines, hskip]
      simp
    · show AdsTxt.parseLenientLines (l :: post) = _
      simp only [AdsTxt.parseLenientLines, hskip]
      simp
  | cons p ps ih =>
    obtain ⟨ih1, ih2⟩ := ih
    constructor
    · simp only [List.cons_append, AdsTxt.parseLines, List.append_eq, ih1]
    · simp only [List.cons_append, AdsTxt.parseLenientLines, List.append_eq, ih2]

/-- C7 witness: a comment line inserted between two record lines changes
neither strict nor lenient parsing. -/
theorem skipped_line_invariance_witness :
    (trimStart "# note".toList = [] ∨ AdsTxt.is_comment "# note".toList = true) ∧
    AdsTxt.parseLines ["a, b, direct".toList, "# note".toList, "c, d, reseller".toList] =
      AdsTxt.parseLines ["a, b, direct".toList, "c, d, reseller".toList] ∧
    AdsTxt.parseLenientLines ["a, b, direct".toList, "# note".toList, "c, d, reseller".toList] =
      AdsTxt.parseLenientLines ["a, b, direct".toList, "c, d, reseller".toList] := by
  refine ⟨Or.inr (by decide), ?_, ?_⟩
  · exact (skipped_line_invariance "# note".toList ["a, b, direct".toList]
      ["c, d, reseller".toList] (Or.inr (by decide))).1
  · exact (skipped_line_invariance "# note".toList ["a, b, direct".toList]
      ["c, d, reseller".toList] (Or.inr (by decide))).2

/-- C8: a non-comment line whose comma-split yields 3 or 4 fields but whose
relation token is invalid is still classified as a Variable by both parse
modes whenever its equals-split yields exactly 2 fields (the variable name
and value may themselves contain commas); the record's relation failure is
not reported. -/
theorem ambiguous_line_classified_as_variable (l : Str) (ls : List Str)
    (h34 : (splitChar ',' (trimStart l)).length = 3 ∨
      (splitChar ',' (trimStart l)).length = 4)
    (hrel : (AccountRelation.parse ((splitChar ',' (trimStart l)).getD 2 [])).isOk = false)
    (h2 : (splitChar '=' (trimStart l)).length = 2)
    (hC : AdsTxt.is_comment (trimStart l) = false) :
    AdsTxt.parseLines (l :: ls) =
      (AdsTxt.parseLines ls).map (fun doc =>
        ⟨doc.records,
         Variable.mk (trim ((splitChar '=' (trimStart l)).getD 0 []))
           (trim ((splitChar '=' (trimStart l)).getD 1 [])) :: doc.vars⟩) ∧
    AdsTxt.parseLenientLines (l :: ls) =
      ((⟨(AdsTxt.parseLenientLines ls).1.records,
         Variable.mk (trim ((splitChar '=' (trimStart l)).getD 0 []))
           (trim ((splitChar '=' (trimStart l)).getD 1 [])) ::
           (AdsTxt.parseLenientLines ls).1.vars⟩ : AdsTxt),
       (AdsTxt.parseLenientLines ls).2) := by
  have hne : ¬(trimStart l = []) := by
    intro h0
    rw [h0] at h2
    simp [splitChar] at h2
  obtain ⟨e, hrec⟩ : ∃ e, DataRecord.parse (trimStart l) = .error e := by
    have hchar := dataRecord_parse_characterization (trimStart l)
    cases ha : AccountRelation.parse ((splitChar ',' (trimStart l)).getD 2 []) with
    | ok r => rw [ha] at hrel; simp [Except.isOk, Except.toBool] at hrel
    | error e =>
      rcases h34 with h3 | h4
      · rw [if_pos h3, ha] at hchar
        exact ⟨e, hchar⟩
      · have hn3 : ¬((splitChar ',' (trimStart l)).length = 3) := by omega
        rw [if_neg hn3, if_pos h4, ha] at hchar
        exact ⟨e, hchar⟩
  have hvar : Variable.parse (trimStart l) =
      .ok ⟨trim ((splitChar '=' (trimStart l)).getD 0 []),
           trim ((splitChar '=' (trimStart l)).getD 1 [])⟩ := by
    rw [variable_parse_characterization, if_pos h2]
  constructor
  · simp [AdsTxt.parseLines, hne, hC, hrec, hvar]
  · simp [AdsTxt.parseLenientLines, hne, hC, hrec, hvar]

/-- C8 witness: the line "a, b=x, nope" has 3 comma fields with an invalid
relation token and 2 equals fields, and both modes store it as the
variable "a, b" = "x, nope". -/
theorem ambiguous_line_classified_as_variable_witness :
    AdsTxt.parseLines ["a, b=x, nope".toList] =
      .ok ⟨[], [⟨"a, b".toList, "x, nope".toList⟩]⟩ ∧
    AdsTxt.parseLenientLines ["a, b=x, nope".toList] =
      (⟨[], [⟨"a, b".toList, "x, nope".toList⟩]⟩, []) := by
  have h := ambiguous_line_classified_as_variable "a, b=x, nope".toList []
    (Or.inl (by decide)) (by decide) (by decide) (by decide)
  constructor
  · rw [h.1]; decide
  · rw [h.2]; decide

theorem eqIgnoreAsciiCase_lower_right (a b : Str) (hb : toLowercase b = b) :
    eqIgnoreAsciiCase a b = (toLowercase a == b) := by
  rw [eqIgnoreAsciiCase]
  show (toLowercase a == toLowercase b) = (toLowercase a == b)
  rw [hb]

/-- C4 counterexample: the document holding only the variable "SUBDOMAIN" =
"x" (as produced by parsing the line "SUBDOMAIN=x") has values("subdomain")
empty but sub_domains() = ["x"], so the two accessors do not return
identical sequences for every document. -/
theorem values_subdomain_counterexample :
    ¬((AdsTxt.new [] [Variable.new "SUBDOMAIN".toList "x".toList]).values
        "subdomain".toList =
      (AdsTxt.new [] [Variable.new "SUBDOMAIN".toList "x".toList]).sub_domains) := by
  decide

/-- C4 amended: for every document in which each variable whose name
matches "subdomain" case-insensitively is literally named "subdomain",
values("subdomain") and sub_domains() return identical sequences; values
with an exact name is case-sensitive — values("Subdomain") is empty unless
a variable literally named "Subdomain" exists — while sub_domains() and
contacts() match the names "subdomain" and "contact" case-insensitively,
returning matching values in original order. -/
theorem accessor_case_sensitivity (d : AdsTxt)
    (h : ∀ v ∈ d.vars, eqIgnoreAsciiCase v.name "subdomain".toList = true →
      v.name = "subdomain".toList) :
    d.values "subdomain".toList = d.sub_domains ∧
    (d.values "Subdomain".toList = [] ↔
      ∀ v ∈ d.vars, v.name ≠ "Subdomain".toList) ∧
    d.sub_domains = ((d.vars.filter fun v =>
      toLowercase v.name == "subdomain".toList).map Variable.value) ∧
    d.contacts = ((d.vars.filter fun v =>
      toLowercase v.name == "contact".toList).map Variable.value) := by
  refine ⟨?_, ?_, ?_, ?_⟩
  · rw [AdsTxt.values, AdsTxt.sub_domains]
    congr 1
    apply List.filter_congr
    intro v hv
    by_cases heq : v.name = "subdomain".toList
    · rw [heq]
      have hci : eqIgnoreAsciiCase "subdomain".toList "subdomain".toList = true := by
        decide
      rw [hci]
      simp
    · have h1 : (v.name == "subdomain".toList) = false := by
        rw [beq_eq_false_iff_ne]
        exact heq
      have h2 : eqIgnoreAsciiCase v.name "subdomain".toList = false := by
        by_contra hc
        rw [Bool.not_eq_false] at hc
        exact heq (h v hv hc)
      rw [h1, h2]
  · rw [AdsTxt.values]
    simp
  · rw [AdsTxt.sub_domains]
    exact congrArg (List.map Variable.value)
      (List.filter_congr fun v hv => eqIgnoreAsciiCase_lower_right v.name _ (by decide))
  · rw [AdsTxt.contacts]
    exact congrArg (List.map Variable.value)
      (List.filter_congr fun v hv => eqIgnoreAsciiCase_lower_right v.name _ (by decide))

/-- C4 witness: on a document whose case-insensitive "subdomain" variables
are all lowercase, values("subdomain") and sub_domains() coincide. -/
theorem accessor_case_sensitivity_witness :
    (AdsTxt.new [] [Variable.new "subdomain".toList "a.example".toList,
       Variable.new "CONTACT".toList "ops".toList]).values "subdomain".toList =
      (AdsTxt.new [] [Variable.new "subdomain".toList "a.example".toList,
        Variable.new "CONTACT".toList "ops".toList]).sub_domains :=
  (accessor_case_sensitivity
    (AdsTxt.new [] [Variable.new "subdomain".toList "a.example".toList,
      Variable.new "CONTACT".toList "ops".toList]) (by decide)).1

theorem dropWhile_head_not (p : Char → Bool) :
    ∀ (l t : Str) (a : Char), l.dropWhile p = a :: t → p a = false := by
  intro l
  induction l with
  | nil =>
    intro t a h
    simp [List.dropWhile] at h
  | cons c cs ih =>
    intro t a h
    rw [List.dropWhile_cons] at h
    by_cases hc : p c = true
    · rw [if_pos hc] at h
      exact ih t a h
    · rw [if_neg hc] at h
      obtain ⟨h1, h2⟩ := List.cons.injEq .. ▸ h
      subst h1
      simpa using hc

theorem trimStart_trim (s : Str) : trimStart (trim s) = trim s := by
  rcases hc : trim s with _ | ⟨a, as⟩
  · rfl
  · have hpre : trim s <+: trimStart s := List.rdropWhile_prefix _ _
    rw [hc] at hpre
    obtain ⟨rest, hrest⟩ := hpre
    have ha : rustIsWhitespace a = false :=
      dropWhile_head_not rustIsWhitespace s (as ++ rest) a (by simpa using hrest.symm)
    show trimStart (a :: as) = a :: as
    rw [trimStart, List.dropWhile_cons]
    simp [ha]

theorem trim_idempotent (s : Str) : trim (trim s) = trim s := by
  show trimEnd (trimStart (trim s)) = trim s
  rw [trimStart_trim]
  show List.rdropWhile rustIsWhitespace (trim s) = trim s
  rw [trim, trimEnd]
  exact List.rdropWhile_idempotent _ _

/-- C10: Variable::new stores its name and value arguments verbatim without
trimming, and DataRecord::new trims domain and publisher_id but stores its
cert_authority argument untrimmed; the trimmed-fields invariant holds for
every record and variable produced by the parse functions, but is not
enforced by these constructors. -/
theorem constructor_trimming_behaviour :
    (∀ n v, Variable.new n v = ⟨n, v⟩) ∧
    (∀ d p a c, DataRecord.new d p a c = ⟨trim d, trim p, a, c⟩) ∧
    (Variable.new " x".toList "y ".toList).name ≠ trim " x".toList ∧
    (DataRecord.new [] [] .Direct (some " c ".toList)).cert_authority ≠
      some (trim " c ".toList) ∧
    (∀ line v, Variable.parse line = .ok v →
      trim v.name = v.name ∧ trim v.value = v.value) ∧
    (∀ line r, DataRecord.parse line = .ok r →
      trim r.domain = r.domain ∧ trim r.publisher_id = r.publisher_id ∧
      ∀ ca, r.cert_authority = some ca → trim ca = ca) := by
  refine ⟨fun n v => rfl, fun d p a c => rfl, by decide, by decide, ?_, ?_⟩
  · intro line v hv
    rw [variable_parse_characterization line] at hv
    by_cases h2 : (splitChar '=' line).length = 2
    · rw [if_pos h2] at hv
      injection hv with h
      subst h
      exact ⟨trim_idempotent _, trim_idempotent _⟩
    · rw [if_neg h2] at hv
      exact Except.noConfusion hv
  · intro line r hr
    rw [dataRecord_parse_characterization line] at hr
    by_cases h3 : (splitChar ',' line).length = 3
    · rw [if_pos h3] at hr
      cases ha : AccountRelation.parse ((splitChar ',' line).getD 2 []) with
      | ok rel =>
        rw [ha] at hr
        injection hr with h
        subst h
        refine ⟨trim_idempotent _, trim_idempotent _, ?_⟩
        intro ca hca
        exact Option.noConfusion hca
      | error e =>
        rw [ha] at hr
        exact Except.noConfusion hr
    · by_cases h4 : (splitChar ',' line).length = 4
      · rw [if_neg h3, if_pos h4] at hr
        cases ha : AccountRelation.parse ((splitChar ',' line).getD 2 []) with
        | ok rel =>
          rw [ha] at hr
          injection hr with h
          subst h
          refine ⟨trim_idempotent _, trim_idempotent _, ?_⟩
          intro ca hca
          have h5 : ca = trim ((splitChar ',' line).getD 3 []) := by
            simpa using hca.symm
          rw [h5]
          exact trim_idempotent _
        | error e =>
          rw [ha] at hr
          exact Except.noConfusion hr
      · rw [if_neg h3, if_neg h4] at hr
        exact Except.noConfusion hr

/-- C10 witness: Variable::new keeps an untrimmed name, while a parsed
variable's fields are already trimmed. -/
theorem constructor_trimming_behaviour_witness :
    Variable.new " a ".toList " b ".toList = ⟨" a ".toList, " b ".toList⟩ ∧
    trim (Variable.mk "n".toList "v".toList).name = "n".toList := by
  constructor
  · exact constructor_trimming_behaviour.1 " a ".toList " b ".toList
  · exact (constructor_trimming_behaviour.2.2.2.2.1 "n=v".toList
      ⟨"n".toList, "v".toList⟩ (by decide)).1

/-- Replace every newline by a carriage-return/newline pair. -/
def crlf : Str → Str
  | [] => []
  | c :: cs => if c = '\n' then '\r' :: '\n' :: crlf cs else c :: crlf cs

/-- Append a carriage return to every part except the last. -/
def tagCR : List Str → List Str
  | [] => []
  | [p] => [p]
  | p :: q :: rest => (p ++ ['\r']) :: tagCR (q :: rest)

theorem splitChar_ne_nil (sep : Char) (s : Str) : splitChar sep s ≠ [] := by
  cases s with
  | nil => simp [splitChar]
  | cons c cs =>
    rw [splitChar]
    by_cases hc : c = sep
    · simp [hc]
    · rw [if_neg hc]
      cases h : splitChar sep cs <;> simp

theorem tagCR_ne_nil (ps : List Str) (h : ps ≠ []) : tagCR ps ≠ [] := by
  cases ps with
  | nil => exact absurd rfl h
  | cons p qs =>
    cases qs with
    | nil => simp [tagCR]
    | cons q rs => simp [tagCR]

theorem mem_of_mem_splitChar (sep : Char) (c : Char) :
    ∀ (s p : Str), p ∈ splitChar sep s → c ∈ p → c ∈ s := by
  intro s
  induction s with
  | nil =>
    intro p hp hc
    simp [splitChar] at hp
    subst hp
    simp at hc
  | cons a as ih =>
    intro p hp hc
    rw [splitChar] at hp
    by_cases ha : a = sep
    · rw [if_pos ha] at hp
      rcases List.mem_cons.mp hp with h | h
      · subst h
        simp at hc
      · exact List.mem_cons_of_mem _ (ih p h hc)
    · rw [if_neg ha] at hp
      cases hsp : splitChar sep as with
      | nil => exact absurd hsp (splitChar_ne_nil sep as)
      | cons f rest =>
        rw [hsp] at hp
        rcases List.mem_cons.mp hp with h | h
        · subst h
          rcases List.mem_cons.mp hc with h2 | h2
          · simp [h2]
          · exact List.mem_cons_of_mem _
              (ih f (by rw [hsp]; exact List.mem_cons_self f rest) h2)
        · exact List.mem_cons_of_mem _
            (ih p (by rw [hsp]; exact List.mem_cons_of_mem f h) hc)

theorem splitChar_crlf (s : Str) :
    splitChar '\n' (crlf s) = tagCR (splitChar '\n' s) := by
  induction s with
  | nil => rfl
  | cons c cs ih =>
    cases hsp : splitChar '\n' cs with
    | nil => exact absurd hsp (splitChar_ne_nil _ _)
    | cons f rest =>
      by_cases hc : c = '\n'
      · subst hc
        simp [crlf, splitChar, ih, hsp, tagCR]
      · cases rest with
        | nil => simp [crlf, hc, splitChar, ih, hsp, tagCR]
        | cons q rs => simp [crlf, hc, splitChar, ih, hsp, tagCR]

theorem tagCR_getLast? (ps : List Str) : (tagCR ps).getLast? = ps.getLast? := by
  induction ps with
  | nil => rfl
  | cons p qs ih =>
    cases qs with
    | nil => rfl
    | cons q rs =>
      cases htg : tagCR (q :: rs) with
      | nil => exact absurd htg (tagCR_ne_nil _ (by simp))
      | cons g gr =>
        rw [tagCR, htg, List.getLast?_cons_cons, ← htg, ih, List.getLast?_cons_cons]

theorem tagCR_dropLast (ps : List Str) :
    (tagCR ps).dropLast = ps.dropLast.map (fun p => p ++ ['\r']) := by
  induction ps with
  | nil => rfl
  | cons p qs ih =>
    cases qs with
    | nil => rfl
    | cons q rs =>
      cases htg : tagCR (q :: rs) with
      | nil => exact absurd htg (tagCR_ne_nil _ (by simp))
      | cons g gr =>
        rw [tagCR, htg, List.dropLast_cons₂, ← htg, ih, List.dropLast_cons₂,
          List.map_cons]

theorem rust_lines_crlf (s : Str) (h : ('\r' : Char) ∉ s) :
    rust_lines (crlf s) = rust_lines s := by
  have hparts := splitChar_crlf s
  have hdrop2 : ((splitChar '\n' s).dropLast.map (fun p => p ++ ['\r'])).map
        stripTrailingCR =
      (splitChar '\n' s).dropLast.map stripTrailingCR := by
    rw [List.map_map]
    apply List.map_congr_left
    intro p hp
    have hmem : p ∈ splitChar '\n' s := (List.dropLast_sublist _).subset hp
    have hnr : ('\r' : Char) ∉ p := fun hcm =>
      h (mem_of_mem_splitChar '\n' '\r' s p hmem hcm)
    show stripTrailingCR (p ++ ['\r']) = stripTrailingCR p
    rw [stripTrailingCR, stripTrailingCR, List.getLast?_concat, List.dropLast_concat]
    rw [if_pos rfl]
    have hng : ¬(p.getLast? = some '\r') := fun hg =>
      hnr (List.mem_of_getLast?_eq_some hg)
    rw [if_neg hng]
  rw [rust_lines, rust_lines, hparts, tagCR_getLast?, tagCR_dropLast, hdrop2]

/-- C9: for an input text containing no carriage return, replacing every
newline separator by a carriage-return/newline pair leaves both strict and
lenient parsing unchanged: the trailing carriage return of a CRLF line
ending is stripped before any line is classified. -/
theorem crlf_line_endings_ignored (s : Str) (h : ('\r' : Char) ∉ s) :
    AdsTxt.parse (crlf s) = AdsTxt.parse s ∧
    AdsTxt.parse_lenient (crlf s) = AdsTxt.parse_lenient s := by
  rw [AdsTxt.parse, AdsTxt.parse, AdsTxt.parse_lenient, AdsTxt.parse_lenient,
    rust_lines_crlf s h]
  exact ⟨rfl, rfl⟩

/-- C9 witness: a concrete three-line file parses identically with LF and
CRLF line endings, in both modes. -/
theorem crlf_line_endings_ignored_witness :
    (('\r' : Char) ∉ "a, b, direct\nx=y\n# c".toList) ∧
    AdsTxt.parse (crlf "a, b, direct\nx=y\n# c".toList) =
      AdsTxt.parse "a, b, direct\nx=y\n# c".toList ∧
    AdsTxt.parse_lenient (crlf "a, b, direct\nx=y\n# c".toList) =
      AdsTxt.parse_lenient "a, b, direct\nx=y\n# c".toList := by
  refine ⟨by decide, ?_, ?_⟩
  · exact (crlf_line_endings_ignored "a, b, direct\nx=y\n# c".toList (by decide)).1
  · exact (crlf_line_endings_ignored "a, b, direct\nx=y\n# c".toList (by decide)).2

example : AccountRelation.parse "DIrecT".toList = .ok .Direct := by decide
example : AccountRelation.parse " REsellER ".toList = .ok .Reseller := by decide
example : AccountRelation.parse "other".toList =
    .error ⟨"Invalid account relation: other".toList⟩ := by decide

example : DataRecord.parse "blueadexchange.com, XF436, DIRECT".toList =
    .ok ⟨"blueadexchange.com".toList, "XF436".toList, .Direct, none⟩ := by decide

example : Variable.parse "subdomain=   divisionone.example.com".toList =
    .ok ⟨"subdomain".toList, "divisionone.example.com".toList⟩ := by decide

example : AdsTxt.parse "silverssp.com, 5569\norangeexchange.com, AB345, RESELLER".toList =
    .error ⟨"Invalid ads.txt line: silverssp.com, 5569".toList⟩ := by decide

example :
    AdsTxt.parse_lenient "silverssp.com, 5569\norangeexchange.com, AB345, RESELLER".toList =
      (⟨[⟨"orangeexchange.com".toList, "AB345".toList, .Reseller, none⟩], []⟩,
       [⟨"Invalid ads.txt line: silverssp.com, 5569".toList⟩]) := by decide

example : rust_lines "a\r\nb\n".toList = ["a".toList, "b".toList] := by decide
example : rust_lines "".toList = [] := by decide
example : rust_lines "a\rb".toList = ["a\rb".toList] := by decide

end AdsSpec
